import Mathlib

deriving instance DecidableEq for Except

/-!
# A verification model of `track` (src/main.rs)

This file gives a shallow embedding in Lean of the core of the `track`
program: the value classifier (`EntryInfo::from`), the entry codec
(`impl Display for Entry` and `Entry::from`), the store (`Track::get_entries`,
`Track::add_entry`) and the query/aggregation pipeline (`Track::query`,
`Entry::aggregate`).  Strings are modelled as `List Char`; `f32` magnitudes are
modelled as exact rationals (`ℚ`) — every numeric literal appearing in the
theorems below is exactly representable in `f32`, so the models agree with the
Rust code on them.  Fallible Rust code (`Result`) is modelled with `Except`;
a call that can abort the process (`Option::unwrap` on `None` inside
`EntryInfo::from`) is modelled by wrapping the result in `Option`, with `none`
standing for the abort.

The two regular expressions of the source are not embedded as a generic regex
engine; instead each one is translated to a recursive function implementing
the leftmost-first (Perl-style, greedy) match semantics that the Rust `regex`
crate documents, specialised to the concrete pattern.  Comments at each
definition derive the translation from the pattern.
-/

namespace TrackModel

/-- Strings are modelled as lists of characters. -/
abbrev Str := List Char

/-! ## Character helpers -/

/-- ASCII decimal digit test (the character class `[0-9]` of the patterns). -/
def isDigitCh (c : Char) : Bool := '0' ≤ c && c ≤ '9'

/-- Numeric value of a digit character. -/
def digitVal (c : Char) : Nat := c.toNat - 48

/-- Character with the given digit value. -/
def digitCh (d : Nat) : Char := Char.ofNat (48 + d)

/-- The Unicode `White_Space` property, as used by Rust's `str::trim`. -/
def isRustWhitespace (c : Char) : Bool :=
  (0x9 ≤ c.toNat && c.toNat ≤ 0xD) || c.toNat = 0x20 || c.toNat = 0x85 ||
  c.toNat = 0xA0 || c.toNat = 0x1680 ||
  (0x2000 ≤ c.toNat && c.toNat ≤ 0x200A) ||
  c.toNat = 0x2028 || c.toNat = 0x2029 || c.toNat = 0x202F ||
  c.toNat = 0x205F || c.toNat = 0x3000

/-- Model of Rust `str::trim`: strip leading and trailing whitespace. -/
def trimStr (s : Str) : Str :=
  ((s.dropWhile isRustWhitespace).reverse.dropWhile isRustWhitespace).reverse

/-- `needle` is a prefix of `hay` (helper for substring search). -/
def startsWith : Str → Str → Bool
  | _, [] => true
  | [], _ :: _ => false
  | h :: hs, n :: ns => h = n && startsWith hs ns

/-- Model of Rust `str::contains` with a string pattern: contiguous substring
search (UTF-8 byte containment coincides with character-sequence containment). -/
def containsStr : Str → Str → Bool
  | [], needle => startsWith [] needle
  | h :: t, needle => startsWith (h :: t) needle || containsStr t needle

/-- Numeric value of a digit string, most significant digit first. -/
def natOfDigits (ds : Str) : Nat := ds.foldl (fun a c => a * 10 + digitVal c) 0

/-! ## Model of Rust `f32::from_str` on sign/digit/dot strings

`EntryInfo::from` runs `str::parse::<f32>` only on capture 1 of
`^([-+]?[0-9]*\.*[0-9]*)+(.*)$`, whose characters are drawn from
`+`, `-`, `.` and the digits.  On that alphabet Rust's float grammar reduces
to `[+-]? (Digits | Digits '.' Digits? | '.' Digits)` (the exponent, infinity
and NaN productions all require letters).  The parsed magnitude is modelled as
an exact rational; the decimal values appearing in the theorems below are
exactly representable in `f32`, where the model and `f32` rounding agree. -/
def parseFloat (s : Str) : Option ℚ :=
  let (sgn, t) : ℚ × Str :=
    match s with
    | '+' :: r => (1, r)
    | '-' :: r => (-1, r)
    | r => (1, r)
  let d1 := t.takeWhile isDigitCh
  let t1 := t.dropWhile isDigitCh
  match t1 with
  | '.' :: t2 =>
      let d2 := t2.takeWhile isDigitCh
      let t3 := t2.dropWhile isDigitCh
      if t3 = [] ∧ (d1 ≠ [] ∨ d2 ≠ []) then
        some (sgn * ((natOfDigits d1 : ℚ) + (natOfDigits d2 : ℚ) / (10 : ℚ) ^ d2.length))
      else none
  | [] => if d1 ≠ [] then some (sgn * (natOfDigits d1 : ℚ)) else none
  | _ => none

/-! ## Model of the value classifier `EntryInfo::from`

The Rust code is

```
static ref QUANTITY_RE: Regex = Regex::new(r"^([-+]?[0-9]*\.*[0-9]*)+(.*)$").unwrap();
let caps = QUANTITY_RE.captures(s.trim()).unwrap();
let quantity = caps.get(1)...; let unit = caps.get(2)...;
if quantity.is_empty() { Ok(EntryInfo::L(String::from(s))) }
else { let quantity = quantity.parse::<f32>()?; Ok(EntryInfo::Q(Quantity { quantity, unit })) }
```

Match semantics of the pattern, derived step by step:

* `.` does not match `'\n'` and the repeated group only matches characters in
  `{+,-,.,0-9}`, so the anchored pattern matches the haystack iff the haystack
  contains no `'\n'`; `captures(..).unwrap()` aborts the process otherwise
  (modelled as `none`).
* One iteration of the repeated group `[-+]?[0-9]*\.*[0-9]*` greedily consumes
  an optional sign, then a maximal digit run, then a maximal dot run, then a
  maximal digit run (`iterStep`).  There is no backtracking pressure because
  the continuation `(.*)$` matches any newline-free remainder.
* The greedy `+` repeats iterations while they consume input.  When the next
  iteration would match the empty string the engine's epsilon-closure
  revisits the loop head at the same position, so that thread is dropped and
  the loop is exited instead: capture 1 keeps the last iteration that
  consumed at least one character, or is empty when the very first iteration
  consumed nothing (`quantLoop`).  Capture 2 takes the whole remainder.
-/

/-- One greedy iteration of the group `[-+]?[0-9]*\.*[0-9]*`: returns the
consumed characters and the remaining input. -/
def iterStep (s : Str) : Str × Str :=
  let (sg, r0) : Str × Str :=
    match s with
    | c :: r => if c = '+' || c = '-' then ([c], r) else ([], s)
    | [] => ([], [])
  let d1 := r0.takeWhile isDigitCh
  let r1 := r0.dropWhile isDigitCh
  let dots := r1.takeWhile (· = '.')
  let r2 := r1.dropWhile (· = '.')
  let d2 := r2.takeWhile isDigitCh
  let r3 := r2.dropWhile isDigitCh
  (sg ++ d1 ++ dots ++ d2, r3)

/-- The greedy `+` loop: iterate `iterStep` while it makes progress, keeping
the last nonempty iteration as capture 1 and the final remainder as the start
of capture 2.  The fuel (always instantiated with `length + 1`) only serves
termination; each productive step strictly shrinks the input. -/
def quantLoop : Nat → Str → Str → Str × Str
  | 0, s, cur => (cur, s)
  | fuel + 1, s, cur =>
      if s = [] then (cur, s)
      else
        let (it, rest) := iterStep s
        if it = [] then (cur, s) else quantLoop fuel rest it

/-- Capture 1 of the quantity pattern on haystack `t`. -/
def quantCapture (t : Str) : Str := (quantLoop (t.length + 1) t []).1

/-- Capture 2 of the quantity pattern on haystack `t`. -/
def quantRest (t : Str) : Str := (quantLoop (t.length + 1) t []).2

/-- `struct Quantity { quantity: f32, unit: String }`. -/
structure Quantity where
  quantity : ℚ
  unit : Str
deriving DecidableEq, Repr

/-- `enum EntryInfo { Q(Quantity), L(String) }`. -/
inductive EntryInfo where
  | Q : Quantity → EntryInfo
  | L : Str → EntryInfo
deriving DecidableEq, Repr

/-- `EntryInfo::from`.  `none` models the process abort of
`captures(..).unwrap()` when the trimmed input contains `'\n'`;
`Except.error` models the `?`-propagated float parse error.  Note that the
`L` branch stores the original, untrimmed `s`. -/
def EntryInfo.fromStr (s : Str) : Option (Except Str EntryInfo) :=
  let t := trimStr s
  if '\n' ∈ t then none
  else
    let quantity := quantCapture t
    let unit := quantRest t
    if quantity = [] then some (.ok (.L s))
    else
      match parseFloat quantity with
      | some v => some (.ok (.Q ⟨v, unit⟩))
      | none => some (.error ("invalid float literal".data))

/-! ## Model of `chrono::DateTime`

Entries carry a `DateTime<Local>`; lines carry its RFC 3339 rendering.  The
model keeps the civil fields plus the UTC offset in minutes (chrono's `Local`
is modelled as a fixed offset, passed as a parameter where the code uses the
ambient local time zone).  Years are restricted to 0–9999 (four printed
digits), nanoseconds to `< 10^9` and seconds to `< 60`; all values produced
by `Local::now()` in practice satisfy this (leap seconds aside). -/

structure DateTime where
  year : Nat
  month : Nat
  day : Nat
  hour : Nat
  minute : Nat
  second : Nat
  nano : Nat
  /-- UTC offset in minutes east. -/
  offset : Int
deriving DecidableEq, Repr

/-- Days in a month of the proleptic Gregorian calendar. -/
def daysInMonth (y m : Nat) : Nat :=
  if m = 2 then
    if y % 4 = 0 ∧ (y % 100 ≠ 0 ∨ y % 400 = 0) then 29 else 28
  else if m = 4 ∨ m = 6 ∨ m = 9 ∨ m = 11 then 30
  else 31

/-- Field validity (what chrono guarantees for values it constructs and
checks when parsing). -/
def DateTime.validB (dt : DateTime) : Bool :=
  decide (dt.year < 10000) && decide (1 ≤ dt.month) && decide (dt.month ≤ 12) &&
  decide (1 ≤ dt.day) && decide (dt.day ≤ daysInMonth dt.year dt.month) &&
  decide (dt.hour < 24) && decide (dt.minute < 60) && decide (dt.second < 60) &&
  decide (dt.nano < 1000000000) && decide (dt.offset.natAbs ≤ 23 * 60 + 59)

/-- Day number of a calendar date (days since 1970-01-01, proleptic
Gregorian); the standard civil-from-days bijection.  chrono's internal day
numbering differs by a constant only, which affects neither the order nor
the day differences used by `Track::query`. -/
def daysFromCivil (ymd : Nat × Nat × Nat) : Int :=
  let y : Int := (ymd.1 : Int) - (if ymd.2.1 ≤ 2 then 1 else 0)
  let era : Int := Int.fdiv y 400
  let yoe : Int := y - era * 400
  let mp : Int := (ymd.2.1 : Int) + (if 2 < ymd.2.1 then -3 else 9)
  let doy : Int := (153 * mp + 2) / 5 + (ymd.2.2 : Int) - 1
  let doe : Int := yoe * 365 + yoe / 4 - yoe / 100 + doy
  era * 146097 + doe - 719468

/-- `daysFromCivil` for arbitrary (possibly negative) years, used to compute
the day numbers of chrono's `NaiveDate` range limits. -/
def daysFromCivilInt (y m d : Int) : Int :=
  let y2 : Int := y - (if m ≤ 2 then 1 else 0)
  let era : Int := Int.fdiv y2 400
  let yoe : Int := y2 - era * 400
  let mp : Int := m + (if 2 < m then -3 else 9)
  let doy : Int := (153 * mp + 2) / 5 + d - 1
  let doe : Int := yoe * 365 + yoe / 4 - yoe / 100 + doy
  era * 146097 + doe - 719468

/-- Day number of chrono's `NaiveDate::MIN`, the date `-262144-01-01`
(`MIN_YEAR = i32::MIN >> 13`). -/
def naiveDateMinDay : Int := daysFromCivilInt (-262144) 1 1

/-- Day number of chrono's `NaiveDate::MAX`, the date `262143-12-31`
(`MAX_YEAR = i32::MAX >> 13`). -/
def naiveDateMaxDay : Int := daysFromCivilInt 262143 12 31

/-- Inverse of `daysFromCivil` (used by the time-zone conversion). -/
def civilFromDays (z0 : Int) : Nat × Nat × Nat :=
  let z : Int := z0 + 719468
  let era : Int := Int.fdiv z 146097
  let doe : Int := z - era * 146097
  let yoe : Int := (doe - doe / 1460 + doe / 36524 - doe / 146096) / 365
  let y : Int := yoe + era * 400
  let doy : Int := doe - (365 * yoe + yoe / 4 - yoe / 100)
  let mp : Int := (5 * doy + 2) / 153
  let d : Int := doy - (153 * mp + 2) / 5 + 1
  let m : Int := mp + (if mp < 10 then 3 else -9)
  (((if m ≤ 2 then y + 1 else y)).toNat, m.toNat, d.toNat)

/-- The calendar day of an entry's timestamp (`e.date.date()`). -/
def DateTime.dayTriple (dt : DateTime) : Nat × Nat × Nat := (dt.year, dt.month, dt.day)

/-- Seconds since the epoch of the instant denoted by the fields. -/
def DateTime.toEpochSec (dt : DateTime) : Int :=
  daysFromCivil dt.dayTriple * 86400 +
    (dt.hour : Int) * 3600 + (dt.minute : Int) * 60 + (dt.second : Int) - dt.offset * 60

/-- Civil fields of an epoch instant in the time zone `off` (minutes east). -/
def DateTime.ofEpochSec (off : Int) (sec : Int) (nano : Nat) : DateTime :=
  let lsec : Int := sec + off * 60
  let days : Int := Int.fdiv lsec 86400
  let sod : Nat := (lsec - days * 86400).toNat
  let ymd := civilFromDays days
  ⟨ymd.1, ymd.2.1, ymd.2.2, sod / 3600, sod % 3600 / 60, sod % 60, nano, off⟩

/-- Model of `chrono`'s `with_timezone(&Local)` for a local zone that is the
fixed offset `off`: re-express the same instant in the target offset.  When
the source offset already equals the target offset the civil fields are
unchanged, which the definition records directly; otherwise the instant is
converted through the epoch. -/
def DateTime.withTimezone (off : Int) (dt : DateTime) : DateTime :=
  if dt.offset = off then dt else DateTime.ofEpochSec off dt.toEpochSec dt.nano

/-! ### RFC 3339 printing (`DateTime::to_rfc3339`)

chrono prints `%Y-%m-%dT%H:%M:%S` with zero padding, then the `Nanosecond`
fixed item (nothing when the nanosecond count is zero, otherwise a dot and
3, 6 or 9 digits according to divisibility by 10^6 / 10^3), then the
`TimezoneOffsetColon` item `±HH:MM`. -/

/-- `n` printed as exactly `k` zero-padded decimal digits. -/
def padNat : Nat → Nat → Str
  | 0, _ => []
  | k + 1, n => padNat k (n / 10) ++ [digitCh (n % 10)]

/-- The `±HH:MM` rendering of an offset in minutes. -/
def offsetStr (off : Int) : Str :=
  (if off < 0 then ['-'] else ['+']) ++
    (padNat 2 (off.natAbs / 60) ++ ':' :: padNat 2 (off.natAbs % 60))

/-- The fractional-second part printed by chrono's `Nanosecond` item. -/
def fracStr (nano : Nat) : Str :=
  if nano = 0 then []
  else if nano % 1000000 = 0 then '.' :: padNat 3 (nano / 1000000)
  else if nano % 1000 = 0 then '.' :: padNat 6 (nano / 1000)
  else '.' :: padNat 9 nano

/-- `DateTime::to_rfc3339`. -/
def DateTime.toRfc3339 (dt : DateTime) : Str :=
  padNat 4 dt.year ++ ('-' :: (padNat 2 dt.month ++ ('-' :: (padNat 2 dt.day ++
    ('T' :: (padNat 2 dt.hour ++ (':' :: (padNat 2 dt.minute ++ (':' ::
      (padNat 2 dt.second ++ (fracStr dt.nano ++ offsetStr dt.offset)))))))))))

/-! ### RFC 3339 parsing (`DateTime::parse_from_rfc3339`)

chrono scans the same item list it prints: four year digits, literal `-`,
two month digits, `-`, two day digits, `T` (or `t`), two hour digits, `:`,
two minute digits, `:`, two second digits, an optional fraction (a dot and
one to nine digits), and an offset (`Z`/`z` or `±HH:MM`), then verifies the
fields denote a real calendar date and time.  The parser below follows that
scan; it returns `none` exactly when chrono returns a parse error. -/

/-- Read exactly `k` decimal digits, MSD first, into an accumulator. -/
def readFixed : Nat → Nat → Str → Option (Nat × Str)
  | 0, acc, s => some (acc, s)
  | k + 1, acc, c :: s =>
      if isDigitCh c then readFixed k (acc * 10 + digitVal c) s else none
  | _ + 1, _, [] => none

/-- Expect one literal character. -/
def expectCh (c : Char) : Str → Option Str
  | d :: r => if d = c then some r else none
  | [] => none

/-- Parse the optional fractional-second part, returning nanoseconds. -/
def parseFrac : Str → Option (Nat × Str)
  | [] => some (0, [])
  | c :: r =>
      if c = '.' then
        let ds := r.takeWhile isDigitCh
        let rest := r.dropWhile isDigitCh
        if 1 ≤ ds.length ∧ ds.length ≤ 9 then
          some (natOfDigits ds * 10 ^ (9 - ds.length), rest)
        else none
      else some (0, c :: r)

/-- Parse the offset part. -/
def parseOffset : Str → Option (Int × Str)
  | [] => none
  | c :: r =>
      if c = 'Z' ∨ c = 'z' then some (0, r)
      else if c = '+' ∨ c = '-' then do
        let (h, r2) ← readFixed 2 0 r
        let r3 ← expectCh ':' r2
        let (m, r4) ← readFixed 2 0 r3
        if h < 24 ∧ m < 60 then
          some (if c = '-' then -(h * 60 + m : Nat) else (h * 60 + m : Nat), r4)
        else none
      else none

/-- `DateTime::parse_from_rfc3339`. -/
def parseRfc3339 (s : Str) : Option DateTime := do
  let (y, s) ← readFixed 4 0 s
  let s ← expectCh '-' s
  let (mo, s) ← readFixed 2 0 s
  let s ← expectCh '-' s
  let (d, s) ← readFixed 2 0 s
  let s ← match s with
    | [] => none
    | c :: r => if c = 'T' ∨ c = 't' then some r else none
  let (h, s) ← readFixed 2 0 s
  let s ← expectCh ':' s
  let (mi, s) ← readFixed 2 0 s
  let s ← expectCh ':' s
  let (sec, s) ← readFixed 2 0 s
  let (nano, s) ← parseFrac s
  let (off, s) ← parseOffset s
  if s = [] then
    let dt : DateTime := ⟨y, mo, d, h, mi, sec, nano, off⟩
    if dt.validB then some dt else none
  else none

/-! ## Model of the entry codec

The Rust code is

```
impl fmt::Display for Entry { ... write!(f, "[{}] {}:{}", self.date.to_rfc3339(), self.categories, self.info) }
static ref ENTRY_RE: Regex = Regex::new(r"^\[(.*)\] (.*):(.*)$").unwrap();
```

Match semantics of `^\[(.*)\] (.*):(.*)$`, derived step by step:

* No group or literal can match `'\n'`, so a haystack containing `'\n'`
  never matches.
* The haystack must start with `[`.
* Group 1 is greedy: the engine tries the candidate positions of the literal
  `"] "` from the rightmost to the left, accepting the first one whose
  remainder can complete `(.*):(.*)$`, i.e. whose remainder contains a `:`
  (`findSplit`: the recursive call — a split further right — takes priority).
* Group 2 is then greedy in the remainder, so the chosen `:` is the last
  colon of the remainder (`splitLastColon`).
-/

/-- Split `s` at the rightmost occurrence of the two-character literal
`"] "` whose remainder contains a colon: returns (part before `"] "`,
part after).  Rightmost priority = the greedy group 1 of the entry pattern. -/
def findSplit : Str → Option (Str × Str)
  | [] => none
  | c :: rest =>
      match findSplit rest with
      | some (pre, post) => some (c :: pre, post)
      | none =>
          if c = ']' ∧ rest.head? = some ' ' ∧ ':' ∈ rest.tail then
            some ([], rest.tail)
          else none

/-- Split `s` at its rightmost colon: returns (before, after). -/
def splitLastColon : Str → Option (Str × Str)
  | [] => none
  | c :: rest =>
      match splitLastColon rest with
      | some (a, b) => some (c :: a, b)
      | none => if c = ':' then some ([], rest) else none

/-- The three captures of `^\[(.*)\] (.*):(.*)$` on `line`, or `none` when
the pattern does not match. -/
def lineSplit (line : Str) : Option (Str × Str × Str) :=
  if '\n' ∈ line then none
  else
    match line with
    | [] => none
    | c :: body =>
        if c = '[' then
          (findSplit body).bind fun p =>
            (splitLastColon p.2).map fun q => (p.1, q.1, q.2)
        else none

/-- `struct Entry { date: DateTime<Local>, categories: String, info: EntryInfo }`. -/
structure Entry where
  date : DateTime
  categories : Str
  info : EntryInfo
deriving DecidableEq, Repr

/-! ### `impl fmt::Display` for `Quantity`, `EntryInfo`, `Entry`

`Quantity` prints `"{}{}"` of the `f32` magnitude and the unit.  Rust's
`f32` `Display` prints the shortest decimal string that reads back to the
same `f32`; for a magnitude parsed from a short decimal literal that is the
literal's own decimal value with no trailing fractional zeros, which is what
`dispRat` produces (the model's magnitudes are the exact decimal values).
A rational that is not a finite decimal cannot arise from `f32`; `dispRat`
falls back to a `?` there. -/

/-- Smallest number of fractional digits with which `v` is a finite decimal. -/
def decExp (v : ℚ) : Option Nat :=
  (List.range 200).find? fun k => (v * (10 : ℚ) ^ k).den = 1

/-- Model of `f32` `Display` for exact-decimal rationals. -/
def dispRat (v : ℚ) : Str :=
  match decExp v with
  | none => ['?']
  | some k =>
      let m : Int := (v * (10 : ℚ) ^ k).num
      let sgn : Str := if m < 0 then ['-'] else []
      let a := m.natAbs
      if k = 0 then sgn ++ (Nat.toDigits 10 a)
      else sgn ++ (Nat.toDigits 10 (a / 10 ^ k)) ++ '.' :: padNat k (a % 10 ^ k)

/-- `impl fmt::Display for EntryInfo` / `for Quantity`. -/
def EntryInfo.display : EntryInfo → Str
  | .Q q => dispRat q.quantity ++ q.unit
  | .L s => s

/-- `impl fmt::Display for Entry`: `"[{}] {}:{}"`. -/
def Entry.display (e : Entry) : Str :=
  '[' :: (e.date.toRfc3339 ++ ']' :: ' ' :: (e.categories ++ ':' :: e.info.display))

/-- `Entry::from`.  `localOff` is the ambient local time zone (a fixed offset
in minutes) used by `with_timezone(&Local)`.  The result is `none` only if
the classification of the value text aborts, which cannot happen for a value
text coming from a matched line (it is newline-free); `Except.error` covers
the unmatched-line and timestamp/quantity errors propagated by `bail!`/`?`. -/
def Entry.fromLine (localOff : Int) (line : Str) : Option (Except Str Entry) :=
  match lineSplit line with
  | none => some (.error "Could not parse line for entry".data)
  | some (ts, cat, val) =>
      match parseRfc3339 ts with
      | none => some (.error "input is out of range".data)
      | some dt =>
          (EntryInfo.fromStr val).map fun r =>
            match r with
            | .error e => .error e
            | .ok info => .ok ⟨dt.withTimezone localOff, cat, info⟩

/-! ## Model of `Entry::aggregate`

`HashMap<String, _>` is modelled as an association list without duplicate
keys; the Rust iteration order is unspecified, so the theorems below speak
only about lookups, never about the list order. -/

/-- `*logs.entry(l).or_insert(0) += 1`. -/
def bumpLog : List (Str × Int) → Str → List (Str × Int)
  | [], k => [(k, 1)]
  | (k', v) :: rest, k =>
      if k' = k then (k', v + 1) :: rest else (k', v) :: bumpLog rest k

/-- `*quantities.entry(unit).or_insert(0.0) += q.quantity`. -/
def addQty : List (Str × ℚ) → Str → ℚ → List (Str × ℚ)
  | [], k, q => [(k, q)]
  | (k', v) :: rest, k, q =>
      if k' = k then (k', v + q) :: rest else (k', v) :: addQty rest k q

/-- `struct EntryInfoAggregate { logs: HashMap<String,i64>, quantities: HashMap<String,f32> }`. -/
structure EntryInfoAggregate where
  logs : List (Str × Int)
  quantities : List (Str × ℚ)
deriving DecidableEq, Repr

/-- `Entry::aggregate`. -/
def Entry.aggregate (entries : List Entry) : EntryInfoAggregate :=
  entries.foldl
    (fun a e =>
      match e.info with
      | .Q q => { a with quantities := addQty a.quantities q.unit q.quantity }
      | .L l => { a with logs := bumpLog a.logs l })
    ⟨[], []⟩

/-! ## Model of `Track::query`

The pipeline is: filter by substring category match and strict date window,
group *consecutive* equal days (itertools `group_by` groups adjacent equal
keys only), inside each day group stably sort by category, group consecutive
equal categories, and aggregate each category group.  The function returns
the computed grouping as the success value (the Rust function prints it and
returns `Ok(())`; nothing in its body produces an `Err`). -/

/-- Group maximal runs of consecutive elements with equal keys, keeping the
key of each run (the behaviour of itertools `group_by`). -/
def chunkBy {κ : Type} [DecidableEq κ] (key : Entry → κ) : List Entry → List (κ × List Entry)
  | [] => []
  | e :: es =>
      match chunkBy key es with
      | [] => [(key e, [e])]
      | (d, g) :: rest =>
          if key e = d then (key e, e :: g) :: rest else (key e, [e]) :: (d, g) :: rest

/-- Strict lexicographic comparison of strings by code point, i.e. Rust's
`String::cmp` (UTF-8 byte order coincides with code point order). -/
def strLt : Str → Str → Bool
  | [], [] => false
  | [], _ :: _ => true
  | _ :: _, [] => false
  | a :: as, b :: bs => if a = b then strLt as bs else decide (a.toNat < b.toNat)

/-- Insert `x` before the first element not strictly smaller than it. -/
def insertByCat (x : Entry) : List Entry → List Entry
  | [] => [x]
  | y :: ys => if strLt y.categories x.categories then y :: insertByCat x ys else x :: y :: ys

/-- Stable sort by category name.  Rust's `sorted_by` is a stable merge
sort; insertion sort is extensionally the same function for a total
preorder, and is structurally recursive (kernel-reducible). -/
def sortByCat : List Entry → List Entry
  | [] => []
  | e :: es => insertByCat e (sortByCat es)

/-- The day-window filter and category filter of `Track::query`:
`e.categories.contains(&categories) && e.date.date() > min_date` where
`min_date = now.date() - Duration::days(range)`.  This is the stage AFTER
`min_date` has been computed: `Track.query` below reaches it only when the
`Duration::days`/`checked_sub_signed` aborts did not fire, and on that path
`min_date`'s day number is exactly `daysFromCivil today - range` (chrono's
`Date` ordering is day-number order for in-range dates, so the unbounded
integer comparison used here agrees with the code). -/
def queryFilter (categories : Str) (range : Int) (today : Nat × Nat × Nat) (entries : List Entry) :
    List Entry :=
  entries.filter fun e =>
    containsStr e.categories categories &&
      decide (daysFromCivil today - range < daysFromCivil e.date.dayTriple)

/-- The grouped, aggregated result `Track::query` prints (the loop body,
reached only after `min_date` was computed without aborting). -/
def queryGroups (entries : List Entry) (categories : Str) (range : Int)
    (today : Nat × Nat × Nat) : List ((Nat × Nat × Nat) × List (Str × EntryInfoAggregate)) :=
  (chunkBy (·.date.dayTriple) (queryFilter categories range today entries)).map fun dg =>
    (dg.1, (chunkBy (·.categories) (sortByCat dg.2)).map fun cg => (cg.1, Entry.aggregate cg.2))

/-- `Track::query`.  The first statement of the body is

```
let min_date: Date<Local> = now.checked_sub_signed(chrono::Duration::days(range)).unwrap();
```

which can abort the process in two ways, both modelled as `none`:

* `chrono::Duration::days(range)` panics when `range * 86400` seconds lie
  outside chrono's `Duration` bounds of ±`i64::MAX` milliseconds, i.e.
  outside `[-9223372036854775, 9223372036854775]` seconds (the
  `checked_mul` overflow inside `Duration::days` is subsumed by the same
  inequality);
* `checked_sub_signed` returns `None` — and `.unwrap()` panics — when the
  day count does not fit in an `i32` or the resulting date leaves
  `NaiveDate`'s representable range `[naiveDateMinDay, naiveDateMaxDay]`
  (the intermediate `i32` cycle arithmetic can only overflow when the
  result is out of that range anyway).

Past that statement the body contains no fallible operation (it always
reaches `Ok(())`); the success value carries the grouping so the theorems
can speak about it. -/
def Track.query (entries : List Entry) (categories : Str) (range : Int)
    (today : Nat × Nat × Nat) :
    Option (Except Str (List ((Nat × Nat × Nat) × List (Str × EntryInfoAggregate)))) :=
  if -9223372036854775 ≤ range * 86400 ∧ range * 86400 ≤ 9223372036854775 then
    if (-2147483648 ≤ range ∧ range ≤ 2147483647) ∧
        (naiveDateMinDay ≤ daysFromCivil today - range ∧
          daysFromCivil today - range ≤ naiveDateMaxDay) then
      some (.ok (queryGroups entries categories range today))
    else none
  else none

/-! ## Model of the store (`Track::get_entries`, `Track::add_entry`) -/

/-- `struct Track`: the backing file is modelled as its list of lines. -/
structure Track where
  fileLines : List Str
  entries : List Entry
deriving DecidableEq, Repr

/-- Parse all non-empty lines in order, stopping at the first error
(`Entry::from(&l)?` inside the loop). -/
def parseAll (localOff : Int) : List Str → Option (Except Str (List Entry))
  | [] => some (.ok [])
  | l :: ls =>
      if l = [] then parseAll localOff ls
      else
        (Entry.fromLine localOff l).bind fun r =>
          match r with
          | .error e => some (.error e)
          | .ok ent => (parseAll localOff ls).map fun r2 => r2.map (ent :: ·)

/-- `Track::get_entries`: read the file's lines, parse them, and replace
`self.entries` only when every line parsed; on failure the early `?` return
leaves `self.entries` untouched.  The returned pair is (new store state,
result). -/
def Track.getEntries (localOff : Int) (t : Track) : Option (Track × Except Str Unit) :=
  (parseAll localOff t.fileLines).map fun r =>
    match r with
    | .error e => (t, .error e)
    | .ok es => ({ t with entries := es }, .ok ())

/-- Model of Rust `str::to_lowercase` restricted to one-to-one case
mappings (sufficient for ASCII category names; the special multi-character
mappings do not matter for any theorem below). -/
def lowerStr (s : Str) : Str := s.map Char.toLower

/-- `Track::add_entry`: classify the value, build the entry with the current
local time and the lowercased category, and append its rendering to the
file.  `self` is borrowed immutably — the in-memory `entries` vector cannot
change; the model keeps the `entries` field of the state untouched in every
branch.  File I/O errors are environmental and modelled as absent. -/
def Track.addEntry (now : DateTime) (t : Track) (categories info : Str) :
    Option (Track × Except Str Unit) :=
  (EntryInfo.fromStr info).map fun r =>
    match r with
    | .error e => (t, .error e)
    | .ok i =>
        ({ t with fileLines := t.fileLines ++ [Entry.display ⟨now, lowerStr categories, i⟩] },
         .ok ())

/-! ## Specification-side helper functions used in theorem statements -/

/-- Whether the two-character sequence `"] "` occurs in `s` (the character
pattern that can confuse the greedy group 1 of the entry pattern). -/
def hasBrkSp : Str → Bool
  | [] => false
  | [_] => false
  | a :: b :: rest => (a = ']' && b = ' ') || hasBrkSp (b :: rest)

/-- Lookup in an association list (the content view of the modelled
`HashMap`s; the list order never enters any theorem statement). -/
def mapLookup {β : Type} (k : Str) : List (Str × β) → Option β
  | [] => none
  | (k', v) :: rest => if k' = k then some v else mapLookup k rest

/-- Number of `Log` entries with exactly the text `t`. -/
def logCount (es : List Entry) (t : Str) : Nat :=
  es.countP fun e =>
    match e.info with
    | .L l => l = t
    | .Q _ => false

/-- Number of `Quantity` entries with exactly the unit `u`. -/
def qtyCount (es : List Entry) (u : Str) : Nat :=
  es.countP fun e =>
    match e.info with
    | .Q q => q.unit = u
    | .L _ => false

/-- Sum of the magnitudes of the `Quantity` entries with unit `u`. -/
def qtySum (es : List Entry) (u : Str) : ℚ :=
  (es.map fun e =>
    match e.info with
    | .Q q => if q.unit = u then q.quantity else 0
    | .L _ => 0).sum

/-!
# Theorems

The remainder of the file settles the claims about the program, one theorem
per claim, with shared helper lemmas.
-/

/-! ## C2 / C4 / C9: the classifier -/

/--
C2 (amended part): classification of a non-empty string whose trimmed form is
newline-free always returns a value (never aborts), and by the shape of
`EntryInfo` that value, when not a parse error, is exactly one of the two
variants; the three example classifications of the claim hold:
`"12kg"` is `Quantity{12.0,"kg"}`, `"ran"` is `Log("ran")`, `"-3.5"` is
`Quantity{-3.5,""}`.  (The "never an error" part of the original claim is
false, see the counterexample.)
-/
theorem fromStr_total_and_examples :
    (∀ s : Str, s ≠ [] → '\n' ∉ trimStr s → ∃ r, EntryInfo.fromStr s = some r) ∧
    EntryInfo.fromStr "12kg".data = some (.ok (.Q ⟨12, "kg".data⟩)) ∧
    EntryInfo.fromStr "ran".data = some (.ok (.L "ran".data)) ∧
    EntryInfo.fromStr "-3.5".data = some (.ok (.Q ⟨-(7/2 : ℚ), "".data⟩)) := by
  refine ⟨?_, by with_unfolding_all rfl, by decide, by with_unfolding_all rfl⟩
  intro s _ hnl
  unfold EntryInfo.fromStr
  rw [if_neg hnl]
  by_cases hq : quantCapture (trimStr s) = []
  · rw [if_pos hq]; exact ⟨_, rfl⟩
  · rw [if_neg hq]
    cases hp : parseFloat (quantCapture (trimStr s)) <;> exact ⟨_, rfl⟩

/--
C2 (counterexample): classification is not error-free on non-empty strings —
on `".."` the captured numeric prefix `".."` fails to parse as a float and
`EntryInfo::from` returns the propagated parse error rather than either
variant.
-/
theorem fromStr_dotdot_error :
    EntryInfo.fromStr "..".data = some (.error "invalid float literal".data) ∧
    ("..".data : Str) ≠ [] := by
  constructor <;> decide

/-- C2 (witness for the amended theorem's universal part). -/
theorem fromStr_total_witness : ∃ r, EntryInfo.fromStr "x".data = some r :=
  fromStr_total_and_examples.1 "x".data (by decide) (by decide)

/--
C4 (counterexample): `"12.34.56abc"` IS silently classified as a quantity:
the repeated capture group retains only its last iteration `".56"`, which
parses as `0.56`, so the result is `Quantity{0.56,"abc"}` and no error is
surfaced.
-/
theorem fromStr_12_34_56abc_quantity :
    EntryInfo.fromStr "12.34.56abc".data =
      some (.ok (.Q ⟨(14 / 25 : ℚ), "abc".data⟩)) := by
  with_unfolding_all rfl

/--
C4 (amended): when the capture of the numeric-prefix group is non-empty and
fails to parse as a float, classification does surface a hard error
(distinguishable from returning `Log`); but the capture is the LAST iteration
of the repeated group, so `"12.34.56abc"` captures `".56"`, parses fine, and
is classified `Quantity{0.56,"abc"}` (see the counterexample).
-/
theorem fromStr_malformed_capture_error (s : Str) (hnl : '\n' ∉ trimStr s)
    (hq : quantCapture (trimStr s) ≠ [])
    (hp : parseFloat (quantCapture (trimStr s)) = none) :
    EntryInfo.fromStr s = some (.error "invalid float literal".data) := by
  unfold EntryInfo.fromStr
  rw [if_neg hnl, if_neg hq, hp]

/-- C4 (witness): `"5..2"` captures `"5..2"`, which fails float parsing, and
classification errors. -/
theorem fromStr_malformed_capture_error_witness :
    EntryInfo.fromStr "5..2".data = some (.error "invalid float literal".data) :=
  fromStr_malformed_capture_error "5..2".data (by decide) (by decide) (by decide)

/--
C9 (counterexample): on `" ran"` (leading whitespace, no numeric prefix) the
classifier returns `Log(" ran")` — the ORIGINAL string, not the trimmed
`"ran"` the claim requires, even though the trimmed form is `"ran"`.
-/
theorem fromStr_untrimmed_log :
    EntryInfo.fromStr " ran".data = some (.ok (.L " ran".data)) ∧
    trimStr " ran".data = "ran".data ∧
    (" ran".data : Str) ≠ "ran".data := by
  refine ⟨by decide, by decide, by decide⟩

/--
C9 (amended): when the trimmed input has an empty numeric-prefix capture, the
classifier returns `Log` of the entire ORIGINAL (untrimmed) input string —
trimming is applied for the classification decision only, not to the stored
text.
-/
theorem fromStr_no_numeric_prefix_log (s : Str) (hnl : '\n' ∉ trimStr s)
    (hq : quantCapture (trimStr s) = []) :
    EntryInfo.fromStr s = some (.ok (.L s)) := by
  unfold EntryInfo.fromStr
  rw [if_neg hnl, if_pos hq]

/-- C9 (witness). -/
theorem fromStr_no_numeric_prefix_log_witness :
    EntryInfo.fromStr " ran".data = some (.ok (.L " ran".data)) :=
  fromStr_no_numeric_prefix_log " ran".data (by decide) (by decide)

/-! ## C8: negative query range -/

/--
C8 (counterexample): a negative `range_days` never produces an
`InvalidRange` error — no such error exists in the code.  With `range = -1`
the window bound becomes a future day, every entry is filtered out, and the
query succeeds with an empty grouping; with a large-magnitude negative
range such as `-100000000` the date subtraction leaves `NaiveDate`'s range
and the `.unwrap()` aborts the process instead of returning an error.
-/
theorem query_negative_range_cx :
    Track.query [⟨⟨2020, 5, 5, 10, 0, 0, 0, 0⟩, "a".data, .L "x".data⟩]
      "a".data (-1) (2020, 5, 5) = some (.ok []) ∧
    Track.query [⟨⟨2020, 5, 5, 10, 0, 0, 0, 0⟩, "a".data, .L "x".data⟩]
      "a".data (-100000000) (2020, 5, 5) = none := by
  constructor <;> with_unfolding_all rfl

/--
C8 (amended): for every negative `range_days` at which the program does not
abort — the day count fits in an `i32` and `today - range` stays inside
`NaiveDate`'s representable range — `query` SUCCEEDS (it cannot return an
error), and when no entry is dated after today the result is the empty
grouping: a silently empty window rather than an `InvalidRange` failure.
Outside those bounds the `min_date` computation panics (see the
counterexample), which is an abort, not an error either.
-/
theorem query_negative_range_ok_empty (entries : List Entry) (categories : Str)
    (range : Int) (today : Nat × Nat × Nat) (hneg : range < 0)
    (hfit : -2147483648 ≤ range)
    (hlo : naiveDateMinDay ≤ daysFromCivil today - range)
    (hhi : daysFromCivil today - range ≤ naiveDateMaxDay)
    (hdates : ∀ e ∈ entries, daysFromCivil e.date.dayTriple ≤ daysFromCivil today) :
    Track.query entries categories range today = some (.ok []) := by
  have hfilter : queryFilter categories range today entries = [] := by
    rw [queryFilter, List.filter_eq_nil_iff]
    intro e he
    have := hdates e he
    simp only [Bool.and_eq_true, decide_eq_true_eq, not_and]
    intro _
    omega
  rw [Track.query, if_pos ⟨by omega, by omega⟩,
    if_pos ⟨⟨hfit, by omega⟩, hlo, hhi⟩, queryGroups, hfilter]
  rfl

/-- C8 (witness for the amended theorem). -/
theorem query_negative_range_ok_empty_witness :
    Track.query [⟨⟨2020, 5, 5, 10, 0, 0, 0, 0⟩, "a".data, .L "x".data⟩]
      "a".data (-2) (2020, 5, 6) = some (.ok []) :=
  query_negative_range_ok_empty _ _ _ _ (by decide) (by decide) (by decide)
    (by decide) (by decide)

/-! ## C10: `add_entry` never touches the in-memory entries -/

/--
C10: `add_entry` only appends to the backing file: for every store state and
every input, whenever the call returns (successfully or with an error) the
in-memory `entries` field is unchanged.
-/
theorem addEntry_preserves_entries (now : DateTime) (t : Track)
    (categories info : Str) (r : Track × Except Str Unit)
    (h : Track.addEntry now t categories info = some r) :
    r.1.entries = t.entries := by
  unfold Track.addEntry at h
  cases hc : EntryInfo.fromStr info with
  | none => rw [hc] at h; exact absurd h (by simp)
  | some v =>
      rw [hc] at h
      cases v with
      | error e => simp at h; rw [← h]
      | ok i => simp at h; rw [← h]

/-- C10 (witness): a failing `add_entry` call (malformed quantity value)
returns with the entries list unchanged. -/
theorem addEntry_preserves_entries_witness :
    ((⟨[], []⟩ : Track), (Except.error "invalid float literal".data : Except Str Unit)).1.entries =
      (⟨[], []⟩ : Track).entries :=
  addEntry_preserves_entries ⟨2020, 5, 5, 10, 0, 0, 0, 0⟩ ⟨[], []⟩ "a".data "..".data
    _ (by decide)

/-! ## C6: aggregation -/

lemma mapLookup_bumpLog_self (m : List (Str × Int)) (k : Str) :
    mapLookup k (bumpLog m k) = some ((mapLookup k m).getD 0 + 1) := by
  induction m with
  | nil => simp [bumpLog, mapLookup]
  | cons p rest ih =>
      obtain ⟨k', v⟩ := p
      by_cases h : k' = k
      · subst h; simp [bumpLog, mapLookup]
      · simp [bumpLog, mapLookup, h, ih]

lemma mapLookup_bumpLog_ne (m : List (Str × Int)) (k k' : Str) (h : ¬ k = k') :
    mapLookup k' (bumpLog m k) = mapLookup k' m := by
  induction m with
  | nil => simp [bumpLog, mapLookup, h]
  | cons p rest ih =>
      obtain ⟨k'', v⟩ := p
      by_cases h2 : k'' = k
      · subst h2; simp [bumpLog, mapLookup, h]
      · simp [bumpLog, mapLookup, h2, ih]

lemma mapLookup_addQty_self (m : List (Str × ℚ)) (k : Str) (q : ℚ) :
    mapLookup k (addQty m k q) = some ((mapLookup k m).getD 0 + q) := by
  induction m with
  | nil => simp [addQty, mapLookup]
  | cons p rest ih =>
      obtain ⟨k', v⟩ := p
      by_cases h : k' = k
      · subst h; simp [addQty, mapLookup]
      · simp [addQty, mapLookup, h, ih]

lemma mapLookup_addQty_ne (m : List (Str × ℚ)) (k k' : Str) (q : ℚ) (h : ¬ k = k') :
    mapLookup k' (addQty m k q) = mapLookup k' m := by
  induction m with
  | nil => simp [addQty, mapLookup, h]
  | cons p rest ih =>
      obtain ⟨k'', v⟩ := p
      by_cases h2 : k'' = k
      · subst h2; simp [addQty, mapLookup, h]
      · simp [addQty, mapLookup, h2, ih]

lemma logCount_cons_L (e : Entry) (es : List Entry) (l t : Str) (h : e.info = .L l) :
    logCount (e :: es) t = logCount es t + (if l = t then 1 else 0) := by
  simp [logCount, List.countP_cons, h]

lemma logCount_cons_Q (e : Entry) (es : List Entry) (q : Quantity) (t : Str)
    (h : e.info = .Q q) : logCount (e :: es) t = logCount es t := by
  simp [logCount, List.countP_cons, h]

lemma qtyCount_cons_L (e : Entry) (es : List Entry) (l u : Str) (h : e.info = .L l) :
    qtyCount (e :: es) u = qtyCount es u := by
  simp [qtyCount, List.countP_cons, h]

lemma qtyCount_cons_Q (e : Entry) (es : List Entry) (q : Quantity) (u : Str)
    (h : e.info = .Q q) :
    qtyCount (e :: es) u = qtyCount es u + (if q.unit = u then 1 else 0) := by
  simp [qtyCount, List.countP_cons, h]

lemma qtySum_cons_L (e : Entry) (es : List Entry) (l u : Str) (h : e.info = .L l) :
    qtySum (e :: es) u = qtySum es u := by
  simp [qtySum, h]

lemma qtySum_cons_Q (e : Entry) (es : List Entry) (q : Quantity) (u : Str)
    (h : e.info = .Q q) :
    qtySum (e :: es) u = (if q.unit = u then q.quantity else 0) + qtySum es u := by
  simp [qtySum, h]

/-- The fold step of `Entry::aggregate`, written out once. -/
def aggStep (a : EntryInfoAggregate) (e : Entry) : EntryInfoAggregate :=
  match e.info with
  | .Q q => { a with quantities := addQty a.quantities q.unit q.quantity }
  | .L l => { a with logs := bumpLog a.logs l }

lemma aggregate_eq_foldl (es : List Entry) :
    Entry.aggregate es = es.foldl aggStep ⟨[], []⟩ := rfl

lemma aggregate_foldl_logs (es : List Entry) :
    ∀ (a : EntryInfoAggregate) (t : Str),
      mapLookup t (es.foldl aggStep a).logs =
        (if logCount es t = 0 then mapLookup t a.logs
         else some ((mapLookup t a.logs).getD 0 + logCount es t)) := by
  induction es with
  | nil => intro a t; simp [logCount]
  | cons e es ih =>
      intro a t
      rw [List.foldl_cons]
      cases hinfo : e.info with
      | Q q =>
          rw [logCount_cons_Q e es q t hinfo]
          have hstep : aggStep a e = { a with quantities := addQty a.quantities q.unit q.quantity } := by
            rw [aggStep, hinfo]
          rw [hstep, ih]
      | L l =>
          have hstep : aggStep a e = { a with logs := bumpLog a.logs l } := by
            rw [aggStep, hinfo]
          rw [hstep, ih, logCount_cons_L e es l t hinfo]
          by_cases hl : l = t
          · subst hl
            rw [if_pos rfl]
            by_cases h0 : logCount es l = 0
            · rw [h0, if_pos rfl, if_neg (by omega), mapLookup_bumpLog_self]
              simp
            · rw [if_neg h0, if_neg (by omega), mapLookup_bumpLog_self, Option.getD_some]
              congr 1
              push_cast
              ring
          · rw [if_neg hl, Nat.add_zero, mapLookup_bumpLog_ne a.logs l t hl]

lemma qtySum_eq_zero (es : List Entry) (u : Str) (h : qtyCount es u = 0) :
    qtySum es u = 0 := by
  induction es with
  | nil => simp [qtySum]
  | cons e es ih =>
      cases hinfo : e.info with
      | L l =>
          rw [qtySum_cons_L e es l u hinfo]
          exact ih (by rw [qtyCount_cons_L e es l u hinfo] at h; exact h)
      | Q q =>
          rw [qtyCount_cons_Q e es q u hinfo] at h
          rw [qtySum_cons_Q e es q u hinfo]
          by_cases h2 : q.unit = u
          · exfalso; rw [if_pos h2] at h; omega
          · rw [if_neg h2, zero_add]
            exact ih (by omega)

lemma aggregate_foldl_quantities (es : List Entry) :
    ∀ (a : EntryInfoAggregate) (u : Str),
      mapLookup u (es.foldl aggStep a).quantities =
        (if qtyCount es u = 0 then mapLookup u a.quantities
         else some ((mapLookup u a.quantities).getD 0 + qtySum es u)) := by
  induction es with
  | nil => intro a u; simp [qtyCount]
  | cons e es ih =>
      intro a u
      rw [List.foldl_cons]
      cases hinfo : e.info with
      | L l =>
          have hstep : aggStep a e = { a with logs := bumpLog a.logs l } := by
            rw [aggStep, hinfo]
          rw [hstep, ih, qtyCount_cons_L e es l u hinfo, qtySum_cons_L e es l u hinfo]
      | Q q =>
          have hstep : aggStep a e = { a with quantities := addQty a.quantities q.unit q.quantity } := by
            rw [aggStep, hinfo]
          rw [hstep, ih, qtyCount_cons_Q e es q u hinfo, qtySum_cons_Q e es q u hinfo]
          by_cases hl : q.unit = u
          · subst hl
            rw [if_pos rfl, if_pos rfl]
            by_cases h0 : qtyCount es q.unit = 0
            · rw [h0, if_pos rfl, if_neg (by omega), mapLookup_addQty_self,
                qtySum_eq_zero es q.unit h0]
              simp
            · rw [if_neg h0, if_neg (by omega), mapLookup_addQty_self, Option.getD_some]
              congr 1
              ring
          · rw [if_neg hl, if_neg hl, Nat.add_zero, zero_add,
              mapLookup_addQty_ne a.quantities q.unit u q.quantity hl]

/--
C6: `Entry::aggregate` is correct: for every list of entries the `logs` map
associates to a text exactly the number of `Log` entries with that text (and
has no key with zero occurrences), and the `quantities` map associates to a
unit exactly the sum of the magnitudes of the `Quantity` entries with that
unit; on the claim's example (two `Log("coding")` entries and one
`Quantity{5,"km"}` for the same day and category `"work"`, the latter being
the classification of `"5km"`) the bucket is `logs={"coding":2}` and
`quantities={"km":5.0}`.
-/
theorem aggregate_correct :
    (∀ (es : List Entry) (t : Str),
        mapLookup t (Entry.aggregate es).logs =
          (if logCount es t = 0 then none else some (logCount es t))) ∧
    (∀ (es : List Entry) (u : Str),
        mapLookup u (Entry.aggregate es).quantities =
          (if qtyCount es u = 0 then none else some (qtySum es u))) ∧
    EntryInfo.fromStr "coding".data = some (.ok (.L "coding".data)) ∧
    EntryInfo.fromStr "5km".data = some (.ok (.Q ⟨5, "km".data⟩)) ∧
    (Entry.aggregate
        [⟨⟨2020, 1, 1, 9, 0, 0, 0, 0⟩, "work".data, .L "coding".data⟩,
         ⟨⟨2020, 1, 1, 10, 0, 0, 0, 0⟩, "work".data, .L "coding".data⟩,
         ⟨⟨2020, 1, 1, 11, 0, 0, 0, 0⟩, "work".data, .Q ⟨5, "km".data⟩⟩]).logs =
      [("coding".data, 2)] ∧
    (Entry.aggregate
        [⟨⟨2020, 1, 1, 9, 0, 0, 0, 0⟩, "work".data, .L "coding".data⟩,
         ⟨⟨2020, 1, 1, 10, 0, 0, 0, 0⟩, "work".data, .L "coding".data⟩,
         ⟨⟨2020, 1, 1, 11, 0, 0, 0, 0⟩, "work".data, .Q ⟨5, "km".data⟩⟩]).quantities =
      [("km".data, 5)] := by
  refine ⟨?_, ?_, by decide, by with_unfolding_all rfl, by decide,
    by with_unfolding_all rfl⟩
  · intro es t
    rw [aggregate_eq_foldl, aggregate_foldl_logs]
    by_cases h0 : logCount es t = 0 <;> simp [h0, mapLookup]
  · intro es u
    rw [aggregate_eq_foldl, aggregate_foldl_quantities]
    by_cases h0 : qtyCount es u = 0 <;> simp [h0, mapLookup]

/-! ## C5: day grouping -/

lemma chunkBy_join {κ : Type} [DecidableEq κ] (key : Entry → κ) (l : List Entry) :
    ((chunkBy key l).map Prod.snd).flatten = l := by
  induction l with
  | nil => rfl
  | cons e es ih =>
      cases hc : chunkBy key es with
      | nil =>
          rw [hc] at ih
          rw [chunkBy, hc]
          simpa using ih.symm
      | cons p rest =>
          obtain ⟨d, g⟩ := p
          rw [hc] at ih
          rw [chunkBy, hc]
          dsimp only
          by_cases h : key e = d
          · rw [if_pos h]
            simpa using ih
          · rw [if_neg h]
            simpa using ih

lemma chunkBy_chain {κ : Type} [DecidableEq κ] (key : Entry → κ) (l : List Entry) :
    List.Chain' (fun a b => a.1 ≠ b.1) (chunkBy key l) := by
  induction l with
  | nil => simp [chunkBy]
  | cons e es ih =>
      cases hc : chunkBy key es with
      | nil => rw [chunkBy, hc]; simp
      | cons p rest =>
          obtain ⟨d, g⟩ := p
          rw [hc] at ih
          rw [chunkBy, hc]
          dsimp only
          by_cases h : key e = d
          · rw [if_pos h]
            cases rest with
            | nil => simp
            | cons p2 rest2 =>
                rw [List.chain'_cons] at ih ⊢
                exact ⟨by simpa [h] using ih.1, ih.2⟩
          · rw [if_neg h]
            rw [List.chain'_cons]
            exact ⟨h, ih⟩

lemma chunkBy_groups {κ : Type} [DecidableEq κ] (key : Entry → κ) (l : List Entry) :
    ∀ p ∈ chunkBy key l, p.2 ≠ [] ∧ ∀ e ∈ p.2, key e = p.1 := by
  induction l with
  | nil => simp [chunkBy]
  | cons e es ih =>
      cases hc : chunkBy key es with
      | nil =>
          rw [chunkBy, hc]
          intro p hp
          simp only [List.mem_singleton] at hp
          subst hp
          exact ⟨by simp, by simp⟩
      | cons q rest =>
          obtain ⟨d, g⟩ := q
          rw [hc] at ih
          rw [chunkBy, hc]
          dsimp only
          by_cases h : key e = d
          · rw [if_pos h]
            intro p hp
            rcases List.mem_cons.mp hp with h1 | h2
            · subst h1
              refine ⟨by simp, ?_⟩
              intro e2 he2
              rcases List.mem_cons.mp he2 with h3 | h4
              · subst h3; rfl
              · have := (ih (d, g) (List.mem_cons_self _ _)).2 e2 h4
                simpa [h] using this
            · exact ih p (List.mem_cons_of_mem _ h2)
          · rw [if_neg h]
            intro p hp
            rcases List.mem_cons.mp hp with h1 | h2
            · subst h1
              exact ⟨by simp, by simp⟩
            · exact ih p h2

/--
C5 (amended): the query groups the filtered entries by *consecutive runs* of
equal calendar days (itertools `group_by` groups adjacent equal keys): the
day groups concatenate back to the filtered sequence in order, adjacent
groups always have distinct days, every group is non-empty and homogeneous in
its day — but the same day appears once per run, not exactly once overall
(see the counterexample for a day appearing twice).
-/
theorem queryGroups_day_runs (entries : List Entry) (categories : Str)
    (range : Int) (today : Nat × Nat × Nat) :
    (queryGroups entries categories range today).map Prod.fst =
      (chunkBy (·.date.dayTriple) (queryFilter categories range today entries)).map Prod.fst ∧
    ((chunkBy (·.date.dayTriple) (queryFilter categories range today entries)).map
      Prod.snd).flatten = queryFilter categories range today entries ∧
    List.Chain' (fun a b => a.1 ≠ b.1)
      (chunkBy (·.date.dayTriple) (queryFilter categories range today entries)) ∧
    ∀ p ∈ chunkBy (·.date.dayTriple) (queryFilter categories range today entries),
      p.2 ≠ [] ∧ ∀ e ∈ p.2, e.date.dayTriple = p.1 := by
  refine ⟨?_, chunkBy_join _ _, chunkBy_chain _ _, chunkBy_groups _ _⟩
  rw [queryGroups, List.map_map]
  rfl

/--
C5 (counterexample): with three same-category entries dated day 1, day 2,
day 1 (non-adjacent repetition of day 1), the query output lists day 1
twice — a distinct day does not appear exactly once.
-/
theorem queryGroups_day_repeats_cx :
    (queryGroups
        [⟨⟨2020, 1, 1, 10, 0, 0, 0, 0⟩, "a".data, .L "x".data⟩,
         ⟨⟨2020, 1, 2, 10, 0, 0, 0, 0⟩, "a".data, .L "y".data⟩,
         ⟨⟨2020, 1, 1, 11, 0, 0, 0, 0⟩, "a".data, .L "z".data⟩]
        "a".data 100 (2020, 1, 2)).map Prod.fst =
      [(2020, 1, 1), (2020, 1, 2), (2020, 1, 1)] ∧
    ¬ ((queryGroups
        [⟨⟨2020, 1, 1, 10, 0, 0, 0, 0⟩, "a".data, .L "x".data⟩,
         ⟨⟨2020, 1, 2, 10, 0, 0, 0, 0⟩, "a".data, .L "y".data⟩,
         ⟨⟨2020, 1, 1, 11, 0, 0, 0, 0⟩, "a".data, .L "z".data⟩]
        "a".data 100 (2020, 1, 2)).map Prod.fst).Nodup := by
  constructor <;> decide

/-! ## C7: loading fails fast and leaves the store unchanged -/

lemma findSplit_snd_sublist (cs : Str) (p : Str × Str) (h : findSplit cs = some p) :
    p.2.Sublist cs := by
  induction cs generalizing p with
  | nil => simp [findSplit] at h
  | cons c rest ih =>
      rw [findSplit] at h
      cases hf : findSplit rest with
      | some q =>
          rw [hf] at h
          obtain ⟨a, b⟩ := q
          simp only [Option.some.injEq] at h
          subst h
          exact (ih (a, b) hf).cons c
      | none =>
          rw [hf] at h
          by_cases hc : c = ']' ∧ rest.head? = some ' ' ∧ ':' ∈ rest.tail
          · rw [if_pos hc] at h
            simp only [Option.some.injEq] at h
            subst h
            exact (List.tail_sublist rest).cons c
          · rw [if_neg hc] at h
            exact absurd h (by simp)

lemma splitLastColon_snd_sublist (cs : Str) (p : Str × Str)
    (h : splitLastColon cs = some p) : p.2.Sublist cs := by
  induction cs generalizing p with
  | nil => simp [splitLastColon] at h
  | cons c rest ih =>
      rw [splitLastColon] at h
      cases hf : splitLastColon rest with
      | some q =>
          rw [hf] at h
          obtain ⟨a, b⟩ := q
          simp only [Option.some.injEq] at h
          subst h
          exact (ih (a, b) hf).cons c
      | none =>
          rw [hf] at h
          by_cases hc : c = ':'
          · rw [if_pos hc] at h
            simp only [Option.some.injEq] at h
            subst h
            exact (List.sublist_cons_self c rest)
          · rw [if_neg hc] at h
            exact absurd h (by simp)

lemma trimStr_subset (s : Str) : ∀ c ∈ trimStr s, c ∈ s := by
  intro c hc
  rw [trimStr] at hc
  rw [List.mem_reverse] at hc
  have h1 := (List.dropWhile_sublist (l := (s.dropWhile isRustWhitespace).reverse)
    (p := isRustWhitespace)).subset hc
  rw [List.mem_reverse] at h1
  exact (List.dropWhile_sublist (p := isRustWhitespace)).subset h1

lemma lineSplit_parts (line : Str) (ts cat val : Str)
    (h : lineSplit line = some (ts, cat, val)) :
    '\n' ∉ line ∧ val.Sublist line := by
  rw [lineSplit.eq_def] at h
  by_cases hn : '\n' ∈ line
  · rw [if_pos hn] at h; exact absurd h (by simp)
  · rw [if_neg hn] at h
    refine ⟨hn, ?_⟩
    cases line with
    | nil => exact absurd h (by simp)
    | cons c body =>
        by_cases hc : c = '['
        · subst hc
          dsimp only at h
          rw [if_pos rfl] at h
          rw [Option.bind_eq_some] at h
          obtain ⟨p, hf, h2⟩ := h
          rw [Option.map_eq_some'] at h2
          obtain ⟨q, hs, h3⟩ := h2
          cases h3
          have hv := splitLastColon_snd_sublist p.2 q hs
          have hr := findSplit_snd_sublist body p hf
          exact (hv.trans hr).cons '['
        · dsimp only at h
          rw [if_neg hc] at h
          exact absurd h (by simp)

lemma fromStr_some_of_no_newline (s : Str) (h : '\n' ∉ trimStr s) :
    ∃ r, EntryInfo.fromStr s = some r := by
  unfold EntryInfo.fromStr
  rw [if_neg h]
  by_cases hq : quantCapture (trimStr s) = []
  · rw [if_pos hq]; exact ⟨_, rfl⟩
  · rw [if_neg hq]
    cases hp : parseFloat (quantCapture (trimStr s)) <;> exact ⟨_, rfl⟩

lemma fromLine_some (localOff : Int) (line : Str) :
    ∃ r, Entry.fromLine localOff line = some r := by
  unfold Entry.fromLine
  cases hl : lineSplit line with
  | none => exact ⟨_, rfl⟩
  | some p =>
      obtain ⟨ts, cat, val⟩ := p
      dsimp only
      cases hp : parseRfc3339 ts with
      | none => exact ⟨_, rfl⟩
      | some dt =>
          dsimp only
          have hnl : '\n' ∉ trimStr val := by
            have hparts := lineSplit_parts line ts cat val hl
            intro hmem
            exact hparts.1 (hparts.2.subset (trimStr_subset val '\n' hmem))
          obtain ⟨r, hr⟩ := fromStr_some_of_no_newline val hnl
          rw [hr]
          exact ⟨_, rfl⟩

lemma parseAll_error_of_malformed (localOff : Int) (lines : List Str)
    (h : ∃ l ∈ lines, l ≠ [] ∧ ∃ msg, Entry.fromLine localOff l = some (.error msg)) :
    ∃ msg, parseAll localOff lines = some (.error msg) := by
  induction lines with
  | nil => obtain ⟨l, hl, _⟩ := h; exact absurd hl (by simp)
  | cons l ls ih =>
      obtain ⟨l0, hl0, hne, msg0, hmal⟩ := h
      rw [parseAll]
      by_cases hempty : l = []
      · rw [if_pos hempty]
        apply ih
        rcases List.mem_cons.mp hl0 with h1 | h2
        · subst h1; exact absurd hempty hne
        · exact ⟨l0, h2, hne, msg0, hmal⟩
      · rw [if_neg hempty]
        obtain ⟨r, hr⟩ := fromLine_some localOff l
        rw [hr]
        cases r with
        | error e => exact ⟨e, rfl⟩
        | ok ent =>
            have hin : l0 ∈ ls := by
              rcases List.mem_cons.mp hl0 with h1 | h2
              · subst h1; rw [hr] at hmal; simp at hmal
              · exact h2
            obtain ⟨msg, hmsg⟩ := ih ⟨l0, hin, hne, msg0, hmal⟩
            rw [hmsg]
            exact ⟨msg, rfl⟩

/--
C7: loading fails fast and atomically: whenever some non-empty line of the
backing file is malformed (parses to an error), `get_entries` returns an
error and leaves the in-memory entry list exactly as it was — even when
well-formed lines precede the malformed one (the first error encountered is
the one surfaced).
-/
theorem getEntries_fail_fast (localOff : Int) (t : Track)
    (h : ∃ l ∈ t.fileLines, l ≠ [] ∧ ∃ msg, Entry.fromLine localOff l = some (.error msg)) :
    ∃ msg, Track.getEntries localOff t = some (t, .error msg) := by
  obtain ⟨msg, hmsg⟩ := parseAll_error_of_malformed localOff t.fileLines h
  refine ⟨msg, ?_⟩
  rw [Track.getEntries, hmsg]
  rfl

/--
C7 (witness): a file with a well-formed line followed by a line missing the
closing bracket fails the load; the store keeps its previous (non-empty)
entry list.
-/
theorem getEntries_fail_fast_witness :
    ∃ msg,
      Track.getEntries 0
        ⟨["[2020-01-01T00:00:00+00:00] a:b".data, "[oops a:b".data],
          [⟨⟨2019, 1, 1, 0, 0, 0, 0, 0⟩, "q".data, .L "w".data⟩]⟩ =
        some
          (⟨["[2020-01-01T00:00:00+00:00] a:b".data, "[oops a:b".data],
            [⟨⟨2019, 1, 1, 0, 0, 0, 0, 0⟩, "q".data, .L "w".data⟩]⟩,
           .error msg) :=
  getEntries_fail_fast 0 _
    ⟨"[oops a:b".data, by decide, by decide,
     "Could not parse line for entry".data, by decide⟩

/-! ## C3 / C1 counterexamples: the delimiter is the LAST colon -/

/--
C3 (counterexample): on the line `"[2020-01-01T00:00:00+00:00] a:b:c"` the
parser assigns category `"a:b"` and value text `"c"` — the greedy second
capture extends to the LAST colon, not the first as the claim states.
-/
theorem fromLine_last_colon_cx :
    Entry.fromLine 0 "[2020-01-01T00:00:00+00:00] a:b:c".data =
      some (.ok ⟨⟨2020, 1, 1, 0, 0, 0, 0, 0⟩, "a:b".data, .L "c".data⟩) ∧
    ("a:b".data : Str) ≠ "a".data ∧ ("c".data : Str) ≠ "b:c".data := by
  refine ⟨by decide, by decide, by decide⟩

/--
C1 (counterexample): the round trip fails for a valid entry in the claim's
sense — category `"work"` (no colon, no newline) and `Log("a:b")` value (no
newline, and itself a fixed point of classification): serializing and
re-parsing yields category `"work:a"` and value `Log("b")`, because the
greedy category capture extends to the last colon of the line.
-/
theorem entry_roundtrip_cx :
    EntryInfo.fromStr "a:b".data = some (.ok (.L "a:b".data)) ∧
    Entry.fromLine 0
        (Entry.display ⟨⟨2021, 3, 4, 5, 6, 7, 0, 0⟩, "work".data, .L "a:b".data⟩) =
      some (.ok ⟨⟨2021, 3, 4, 5, 6, 7, 0, 0⟩, "work:a".data, .L "b".data⟩) ∧
    ("work:a".data : Str) ≠ "work".data := by
  refine ⟨by decide, by decide, by decide⟩

/-! ## The generic line-split lemmas (for C3 and C1)

`findSplit` prefers the rightmost admissible `"] "` occurrence (the cons case
defers to the recursive call whenever it succeeds), mirroring the greedy
group 1; `splitLastColon` likewise picks the rightmost colon, mirroring the
greedy group 2.  The lemmas below compute both on lines of the shape the
serializer produces. -/

lemma findSplit_none_of_no_colon (l : Str) (h : ':' ∉ l) : findSplit l = none := by
  induction l with
  | nil => rfl
  | cons c rest ih =>
      rw [findSplit, ih (fun hm => h (List.mem_cons_of_mem c hm))]
      rw [if_neg]
      rintro ⟨_, _, h3⟩
      exact h (List.mem_cons_of_mem c ((List.tail_sublist rest).subset h3))

lemma splitLastColon_none_of_no_colon (l : Str) (h : ':' ∉ l) :
    splitLastColon l = none := by
  induction l with
  | nil => rfl
  | cons c rest ih =>
      rw [splitLastColon, ih (fun hm => h (List.mem_cons_of_mem c hm))]
      rw [if_neg]
      intro hc
      exact h (hc ▸ List.mem_cons_self c rest)

lemma splitLastColon_append (cat val : Str) (h : ':' ∉ val) :
    splitLastColon (cat ++ ':' :: val) = some (cat, val) := by
  induction cat with
  | nil =>
      rw [List.nil_append, splitLastColon, splitLastColon_none_of_no_colon val h]
      rw [if_pos rfl]
  | cons c cat ih =>
      rw [List.cons_append, splitLastColon, ih]

lemma hasBrkSp_cons (a : Char) (l : Str) (h : hasBrkSp (a :: l) = false) :
    hasBrkSp l = false := by
  cases l with
  | nil => rfl
  | cons b rest =>
      rw [hasBrkSp] at h
      rw [Bool.or_eq_false_iff] at h
      exact h.2

lemma findSplit_mid_none (cat val : Str) (hb : hasBrkSp cat = false)
    (hv : ':' ∉ val) : findSplit (cat ++ ':' :: val) = none := by
  induction cat with
  | nil =>
      rw [List.nil_append, findSplit, findSplit_none_of_no_colon val hv]
      rw [if_neg]
      rintro ⟨h1, _, _⟩
      exact absurd h1 (by decide)
  | cons c cat ih =>
      rw [List.cons_append, findSplit, ih (hasBrkSp_cons c cat hb)]
      rw [if_neg]
      rintro ⟨h1, h2, _⟩
      cases hcat : cat with
      | nil =>
          rw [hcat] at h2
          simp at h2
      | cons b rest =>
          rw [hcat] at h2
          simp only [List.cons_append, List.head?_cons, Option.some.injEq] at h2
          rw [hcat, hasBrkSp, Bool.or_eq_false_iff] at hb
          have := hb.1
          rw [h1, h2] at this
          simp at this

lemma findSplit_space_mid_none (cat val : Str) (hb : hasBrkSp cat = false)
    (hv : ':' ∉ val) : findSplit (' ' :: (cat ++ ':' :: val)) = none := by
  rw [findSplit, findSplit_mid_none cat val hb hv]
  rw [if_neg]
  rintro ⟨h1, _, _⟩
  exact absurd h1 (by decide)

lemma findSplit_boundary (ts rest : Str) (hnone : findSplit (' ' :: rest) = none)
    (hc : ':' ∈ rest) : findSplit (ts ++ ']' :: ' ' :: rest) = some (ts, rest) := by
  induction ts with
  | nil =>
      rw [List.nil_append, findSplit, hnone]
      rw [if_pos ⟨rfl, rfl, by simpa using hc⟩]
      rfl
  | cons c ts ih =>
      rw [List.cons_append, findSplit, ih]

/-- The entry pattern computes the expected three captures on every line of
the shape the serializer emits, provided the category contains no `"] "`
and the value no colon (the timestamp part is unconstrained: a split inside
it loses to the rightmost priority). -/
lemma lineSplit_display (ts cat val : Str)
    (hts_n : '\n' ∉ ts) (hcat_n : '\n' ∉ cat) (hval_n : '\n' ∉ val)
    (hb : hasBrkSp cat = false) (hvc : ':' ∉ val) :
    lineSplit ('[' :: (ts ++ ']' :: ' ' :: (cat ++ ':' :: val))) =
      some (ts, cat, val) := by
  rw [lineSplit.eq_def]
  rw [if_neg (by
    simp only [List.mem_cons, List.mem_append]
    rintro (h | h | h | h | h | h | h) <;>
      first
        | exact absurd h (by decide)
        | exact hts_n h
        | exact hcat_n h
        | exact hval_n h)]
  dsimp only
  rw [if_pos rfl]
  rw [findSplit_boundary ts _ (findSplit_space_mid_none cat val hb hvc)
    (by simp)]
  rw [Option.some_bind]
  rw [splitLastColon_append cat val hvc]
  rfl

/--
C3 (amended): the delimiter between category and value is the LAST colon
after the chosen `"] "`: for every line of the form `"[ts` `] a:b:c"` (with a
parseable timestamp, newline-free components, no `"] "` inside `a:b`, and `c`
colon-free), `Entry::from` assigns category `"a:b"` — which contains a
colon — and value text `"c"`, classified as usual.
-/
theorem fromLine_last_colon (localOff : Int) (ts a b c : Str) (dt : DateTime)
    (info : EntryInfo)
    (hts : parseRfc3339 ts = some dt)
    (hts_n : '\n' ∉ ts) (ha_n : '\n' ∉ a) (hb_n : '\n' ∉ b) (hc_n : '\n' ∉ c)
    (hbr : hasBrkSp (a ++ ':' :: b) = false) (hcc : ':' ∉ c)
    (hinfo : EntryInfo.fromStr c = some (.ok info)) :
    Entry.fromLine localOff ('[' :: (ts ++ ']' :: ' ' :: (a ++ ':' :: b ++ ':' :: c))) =
      some (.ok ⟨dt.withTimezone localOff, a ++ ':' :: b, info⟩) := by
  have hshape : a ++ ':' :: b ++ ':' :: c = (a ++ ':' :: b) ++ ':' :: c := by
    simp [List.append_assoc]
  rw [hshape, Entry.fromLine,
    lineSplit_display ts (a ++ ':' :: b) c hts_n
      (by
        simp only [List.mem_append, List.mem_cons]
        rintro (h | h | h)
        · exact ha_n h
        · exact absurd h.symm (by decide)
        · exact hb_n h)
      hc_n hbr hcc]
  dsimp only
  rw [hts]
  dsimp only
  rw [hinfo]
  rfl

/-- C3 (witness for the amended theorem). -/
theorem fromLine_last_colon_witness :
    Entry.fromLine 0
        ('[' :: ("2020-01-01T00:00:00+00:00".data ++ ']' :: ' ' ::
          ("a".data ++ ':' :: "b".data ++ ':' :: "c".data))) =
      some (.ok ⟨DateTime.withTimezone 0 ⟨2020, 1, 1, 0, 0, 0, 0, 0⟩,
        "a".data ++ ':' :: "b".data, .L "c".data⟩) :=
  fromLine_last_colon 0 "2020-01-01T00:00:00+00:00".data "a".data "b".data "c".data
    ⟨2020, 1, 1, 0, 0, 0, 0, 0⟩ (.L "c".data) (by decide) (by decide) (by decide)
    (by decide) (by decide) (by decide) (by decide) (by decide)

/-! ## Digit-printing round trips (for C1) -/

lemma digitCh_isDigit (d : Nat) (h : d < 10) : isDigitCh (digitCh d) = true := by
  interval_cases d <;> decide

lemma digitVal_digitCh (d : Nat) (h : d < 10) : digitVal (digitCh d) = d := by
  interval_cases d <;> decide

lemma mem_padNat_isDigit (k : Nat) :
    ∀ (n : Nat), ∀ c ∈ padNat k n, isDigitCh c = true := by
  induction k with
  | zero => intro n c hc; simp [padNat] at hc
  | succ k ih =>
      intro n c hc
      rw [padNat] at hc
      rcases List.mem_append.mp hc with h | h
      · exact ih _ c h
      · rw [List.mem_singleton] at h
        subst h
        exact digitCh_isDigit _ (Nat.mod_lt _ (by omega))

lemma newline_not_mem_padNat (k n : Nat) : '\n' ∉ padNat k n := fun h =>
  absurd (mem_padNat_isDigit k n '\n' h) (by decide)

lemma padNat_length (k : Nat) : ∀ n, (padNat k n).length = k := by
  induction k with
  | zero => intro n; rfl
  | succ k ih => intro n; rw [padNat, List.length_append, ih]; rfl

lemma readFixed_padNat (k : Nat) :
    ∀ (j m acc : Nat) (rest : Str), m < 10 ^ k →
      readFixed (k + j) acc (padNat k m ++ rest) =
        readFixed j (acc * 10 ^ k + m) rest := by
  induction k with
  | zero =>
      intro j m acc rest h
      have hm : m = 0 := by omega
      subst hm
      simp [padNat]
  | succ k ih =>
      intro j m acc rest h
      have hlt : m / 10 < 10 ^ k := by
        rw [Nat.div_lt_iff_lt_mul (by omega)]
        calc m < 10 ^ (k + 1) := h
        _ = 10 ^ k * 10 := by rw [pow_succ]
      rw [padNat, List.append_assoc, List.singleton_append]
      have heq : k + 1 + j = k + (j + 1) := by omega
      rw [heq, ih (j + 1) (m / 10) acc _ hlt]
      rw [readFixed, if_pos (digitCh_isDigit _ (Nat.mod_lt _ (by omega)))]
      rw [digitVal_digitCh _ (Nat.mod_lt _ (by omega))]
      congr 1
      have hdm := Nat.div_add_mod m 10
      rw [pow_succ]
      ring_nf
      omega

lemma readFixed_padNat_exact (k m : Nat) (rest : Str) (h : m < 10 ^ k) :
    readFixed k 0 (padNat k m ++ rest) = some (m, rest) := by
  have h0 := readFixed_padNat k 0 m 0 rest h
  rw [Nat.add_zero] at h0
  rw [h0, readFixed]
  rw [Nat.zero_mul, Nat.zero_add]

lemma natOfDigits_padNat_aux (k : Nat) :
    ∀ (m acc : Nat), m < 10 ^ k →
      (padNat k m).foldl (fun a c => a * 10 + digitVal c) acc = acc * 10 ^ k + m := by
  induction k with
  | zero =>
      intro m acc h
      have hm : m = 0 := by omega
      subst hm
      simp [padNat]
  | succ k ih =>
      intro m acc h
      have hlt : m / 10 < 10 ^ k := by
        rw [Nat.div_lt_iff_lt_mul (by omega)]
        calc m < 10 ^ (k + 1) := h
        _ = 10 ^ k * 10 := by rw [pow_succ]
      rw [padNat, List.foldl_append, ih (m / 10) acc hlt]
      rw [List.foldl_cons, List.foldl_nil]
      rw [digitVal_digitCh _ (Nat.mod_lt _ (by omega))]
      have hdm := Nat.div_add_mod m 10
      rw [pow_succ]
      ring_nf
      omega

lemma natOfDigits_padNat (k m : Nat) (h : m < 10 ^ k) :
    natOfDigits (padNat k m) = m := by
  rw [natOfDigits, natOfDigits_padNat_aux k m 0 h, Nat.zero_mul, Nat.zero_add]

lemma takeWhile_append_of_all {p : Char → Bool} (A : Str)
    (hA : ∀ a ∈ A, p a = true) (c : Char) (hc : p c = false) (rest : Str) :
    (A ++ c :: rest).takeWhile p = A ∧ (A ++ c :: rest).dropWhile p = c :: rest := by
  induction A with
  | nil => simp [List.takeWhile_cons, List.dropWhile_cons, hc]
  | cons a A ih =>
      have ha := hA a (List.mem_cons_self a A)
      have ih2 := ih fun x hx => hA x (List.mem_cons_of_mem a hx)
      simp [List.takeWhile_cons, List.dropWhile_cons, ha, ih2.1, ih2.2]

/-! ## RFC 3339 print–parse round trip (for C1) -/

lemma someBind {α β : Type} (a : α) (f : α → Option β) :
    (some a >>= f) = f a := rfl

lemma offsetStr_head (off : Int) :
    ∃ c rest, offsetStr off = c :: rest ∧ (c = '+' ∨ c = '-') ∧
      isDigitCh c = false ∧
      rest = padNat 2 (off.natAbs / 60) ++ ':' :: padNat 2 (off.natAbs % 60) := by
  rw [offsetStr]
  by_cases hn : off < 0
  · rw [if_pos hn, List.singleton_append]
    exact ⟨'-', _, rfl, Or.inr rfl, by decide, rfl⟩
  · rw [if_neg hn, List.singleton_append]
    exact ⟨'+', _, rfl, Or.inl rfl, by decide, rfl⟩

lemma parseFrac_offsetStr (off : Int) :
    parseFrac (offsetStr off) = some (0, offsetStr off) := by
  obtain ⟨c, rest, hco, hsign, _, _⟩ := offsetStr_head off
  rw [hco, parseFrac, if_neg (by rcases hsign with h | h <;> subst h <;> decide)]

lemma parseFrac_digits (k v : Nat) (off : Int) (hk1 : 1 ≤ k) (hk9 : k ≤ 9)
    (hv : v < 10 ^ k) :
    parseFrac ('.' :: (padNat k v ++ offsetStr off)) =
      some (v * 10 ^ (9 - k), offsetStr off) := by
  obtain ⟨c, rest, hco, _, hcd, _⟩ := offsetStr_head off
  rw [parseFrac, if_pos rfl, hco]
  have htw := takeWhile_append_of_all (padNat k v) (mem_padNat_isDigit k v) c hcd rest
  rw [htw.1, htw.2]
  dsimp only
  rw [padNat_length]
  rw [if_pos ⟨hk1, hk9⟩]
  rw [natOfDigits_padNat k v hv, ← hco]

lemma parseFrac_fracStr (nano : Nat) (off : Int) (h9 : nano < 1000000000) :
    parseFrac (fracStr nano ++ offsetStr off) = some (nano, offsetStr off) := by
  rw [fracStr]
  by_cases h0 : nano = 0
  · rw [if_pos h0, List.nil_append]
    subst h0
    exact parseFrac_offsetStr off
  · rw [if_neg h0]
    have e3 : (10 : Nat) ^ 3 = 1000 := by norm_num
    have e6 : (10 : Nat) ^ 6 = 1000000 := by norm_num
    have e9 : (10 : Nat) ^ 9 = 1000000000 := by norm_num
    by_cases h6 : nano % 1000000 = 0
    · rw [if_pos h6, List.cons_append]
      rw [parseFrac_digits 3 (nano / 1000000) off (by omega) (by omega)
        (by rw [e3]; omega)]
      have hval : nano / 1000000 * 10 ^ (9 - 3) = nano := by
        have he : (10 : Nat) ^ (9 - 3) = 1000000 := by norm_num
        rw [he]
        omega
      rw [hval]
    · by_cases h3 : nano % 1000 = 0
      · rw [if_neg h6, if_pos h3, List.cons_append]
        rw [parseFrac_digits 6 (nano / 1000) off (by omega) (by omega)
          (by rw [e6]; omega)]
        have hval : nano / 1000 * 10 ^ (9 - 6) = nano := by
          have he : (10 : Nat) ^ (9 - 6) = 1000 := by norm_num
          rw [he]
          omega
        rw [hval]
      · rw [if_neg h6, if_neg h3, List.cons_append]
        rw [parseFrac_digits 9 nano off (by omega) (by omega) (by rw [e9]; omega)]
        have hval : nano * 10 ^ (9 - 9) = nano := by norm_num
        rw [hval]

lemma parseOffset_offsetStr (off : Int) (h : off.natAbs ≤ 23 * 60 + 59) :
    parseOffset (offsetStr off) = some (off, []) := by
  have e2 : (10 : Nat) ^ 2 = 100 := by norm_num
  have hh : off.natAbs / 60 < 10 ^ 2 := by rw [e2]; omega
  have hm : off.natAbs % 60 < 10 ^ 2 := by rw [e2]; omega
  have hrest : padNat 2 (off.natAbs % 60) = padNat 2 (off.natAbs % 60) ++ [] :=
    (List.append_nil _).symm
  rw [offsetStr]
  by_cases hn : off < 0
  · rw [if_pos hn, List.singleton_append, parseOffset]
    rw [if_neg (by decide), if_pos (Or.inr rfl)]
    rw [readFixed_padNat_exact 2 (off.natAbs / 60) _ hh, someBind]
    dsimp only
    rw [expectCh, if_pos rfl, someBind]
    rw [hrest, readFixed_padNat_exact 2 (off.natAbs % 60) _ hm, someBind]
    dsimp only
    rw [if_pos ⟨by omega, by omega⟩, if_pos rfl]
    congr 2
    omega
  · rw [if_neg hn, List.singleton_append, parseOffset]
    rw [if_neg (by decide), if_pos (Or.inl rfl)]
    rw [readFixed_padNat_exact 2 (off.natAbs / 60) _ hh, someBind]
    dsimp only
    rw [expectCh, if_pos rfl, someBind]
    rw [hrest, readFixed_padNat_exact 2 (off.natAbs % 60) _ hm, someBind]
    dsimp only
    rw [if_pos ⟨by omega, by omega⟩, if_neg (by decide)]
    congr 2
    omega

lemma newline_not_mem_fracStr (nano : Nat) : '\n' ∉ fracStr nano := by
  rw [fracStr]
  split_ifs
  · simp
  all_goals
    intro h
    rcases List.mem_cons.mp h with h | h
    · exact absurd h (by decide)
    · exact newline_not_mem_padNat _ _ h

lemma newline_not_mem_offsetStr (off : Int) : '\n' ∉ offsetStr off := by
  obtain ⟨c, rest, hco, hsign, _, hre⟩ := offsetStr_head off
  rw [hco]
  intro h
  rcases List.mem_cons.mp h with h | h
  · rcases hsign with hs | hs <;> (subst hs; exact absurd h (by decide))
  · rw [hre] at h
    rcases List.mem_append.mp h with h | h
    · exact newline_not_mem_padNat _ _ h
    · rcases List.mem_cons.mp h with h | h
      · exact absurd h (by decide)
      · exact newline_not_mem_padNat _ _ h

lemma newline_not_mem_toRfc3339 (dt : DateTime) : '\n' ∉ dt.toRfc3339 := by
  rw [DateTime.toRfc3339]
  intro h
  simp only [List.mem_append, List.mem_cons] at h
  rcases h with h | h | h | h | h | h | h | h | h | h | h | h | h <;>
    first
      | exact newline_not_mem_padNat _ _ h
      | exact absurd h (by decide)
      | exact newline_not_mem_fracStr _ h
      | exact newline_not_mem_offsetStr _ h

/-- Printing a valid `DateTime` and parsing the result recovers every field
(the precision RFC 3339 supports is full nanoseconds, so nothing is lost). -/
lemma parse_print_rfc3339 (dt : DateTime) (hv : dt.validB = true) :
    parseRfc3339 dt.toRfc3339 = some dt := by
  obtain ⟨y, mo, d, h, mi, s, na, off⟩ := dt
  have hv' := hv
  rw [DateTime.validB] at hv'
  simp only [Bool.and_eq_true, decide_eq_true_eq] at hv'
  obtain ⟨⟨⟨⟨⟨⟨⟨⟨⟨hy, hmo1⟩, hmo2⟩, hd1⟩, hd2⟩, hh⟩, hmi⟩, hs⟩, hna⟩, hoff⟩ := hv'
  have e4 : (10 : Nat) ^ 4 = 10000 := by norm_num
  have e2 : (10 : Nat) ^ 2 = 100 := by norm_num
  have h31 : daysInMonth y mo ≤ 31 := by
    rw [daysInMonth]
    split_ifs <;> omega
  rw [DateTime.toRfc3339, parseRfc3339]
  rw [readFixed_padNat_exact 4 y _ (by rw [e4]; omega), someBind]
  dsimp only
  rw [expectCh, if_pos rfl, someBind]
  rw [readFixed_padNat_exact 2 mo _ (by rw [e2]; omega), someBind]
  dsimp only
  rw [expectCh, if_pos rfl, someBind]
  rw [readFixed_padNat_exact 2 d _ (by rw [e2]; omega), someBind]
  dsimp only
  rw [if_pos (Or.inl rfl), someBind]
  rw [readFixed_padNat_exact 2 h _ (by rw [e2]; omega), someBind]
  dsimp only
  rw [expectCh, if_pos rfl, someBind]
  rw [readFixed_padNat_exact 2 mi _ (by rw [e2]; omega), someBind]
  dsimp only
  rw [expectCh, if_pos rfl, someBind]
  rw [readFixed_padNat_exact 2 s _ (by rw [e2]; omega), someBind]
  dsimp only
  rw [parseFrac_fracStr na off hna, someBind]
  dsimp only
  rw [parseOffset_offsetStr off hoff, someBind]
  dsimp only
  rw [if_pos rfl, if_pos hv]

/--
C1 (amended): the round trip holds under the validity conditions the code
actually needs: the timestamp has in-range fields and carries the local
offset; the category contains no `':'`, no newline and no `"] "`; the value
text contains no `':'` and no newline and is a fixed point of classification
(serializing the value and classifying it again yields the value itself).
Then parsing the serialized line succeeds and reproduces the entry exactly —
category, value, and the timestamp to full (nanosecond) precision.  As
stated the claim is false: it allows `':'` in the value, which mis-splits
(see the counterexample).  The category's colon-freeness is part of the
claim's validity envelope but is not in fact needed: the greedy split picks
the line's last colon regardless.
-/
theorem entry_roundtrip (localOff : Int) (e : Entry)
    (hv : e.date.validB = true)
    (hoff : e.date.offset = localOff)
    (hcat_n : '\n' ∉ e.categories) (_hcat_c : ':' ∉ e.categories)
    (hcat_b : hasBrkSp e.categories = false)
    (hval_n : '\n' ∉ e.info.display) (hval_c : ':' ∉ e.info.display)
    (hcanon : EntryInfo.fromStr e.info.display = some (.ok e.info)) :
    Entry.fromLine localOff e.display = some (.ok e) := by
  rw [Entry.display, Entry.fromLine,
    lineSplit_display e.date.toRfc3339 e.categories e.info.display
      (newline_not_mem_toRfc3339 e.date) hcat_n hval_n hcat_b hval_c]
  dsimp only
  rw [parse_print_rfc3339 e.date hv]
  dsimp only
  rw [hcanon]
  dsimp only [Option.map]
  rw [DateTime.withTimezone, if_pos hoff]

/-- C1 (witness for the amended round-trip theorem). -/
theorem entry_roundtrip_witness :
    Entry.fromLine 0
        (Entry.display ⟨⟨2021, 3, 4, 5, 6, 7, 0, 0⟩, "work".data, .L "ran".data⟩) =
      some (.ok ⟨⟨2021, 3, 4, 5, 6, 7, 0, 0⟩, "work".data, .L "ran".data⟩) :=
  entry_roundtrip 0 ⟨⟨2021, 3, 4, 5, 6, 7, 0, 0⟩, "work".data, .L "ran".data⟩
    (by decide) (by decide) (by decide) (by decide) (by decide) (by decide)
    (by decide) (by decide)

end TrackModel
